import Mathlib

/-!
Verification of the go-githelpers repository.

We give a shallow embedding of the repository's logic:
* `splitRepoURL` (src/common.go) -- URL decomposition, built on models of
  Go's `strings.Split`, `strings.TrimSuffix` and `path/filepath.Base`;
  the helper `unpack` panics when the split yields more parts than target
  variables, so the embedding returns an `Option`.
* the GitLab identifier-resolution and merge-request functions
  (src/gitlab.go and src/unnamed/part_000), with the remote API modelled
  as an oracle record and the issued API calls recorded in a trace.
* `InitAndPushNewRepo` and `fileExists` (src/git.go) with the Git backend
  modelled as an oracle record and issued git operations recorded.
-/

set_option autoImplicit false

namespace GoGithelpers

/-- Model of Go `strings.Split s sep` for a one-character separator `c`:
`strings.Split "" ":" = [""]`, and in general the segments between
occurrences of the separator, in order. -/
def splitOnChar (c : Char) : List Char → List (List Char)
  | [] => [[]]
  | x :: xs =>
    let r := splitOnChar c xs
    if x = c then [] :: r else (x :: r.headD []) :: r.tail

/-- Model of `unpack` from src/common.go specialised to the two target
variables used by `splitRepoURL` (`vcs` and `sansVcs`, both with Go zero
value `""`).  `unpack` writes `s[i]` into `vars[i]` for every index of
`s`; when `s` has three or more elements the write `vars[2]` indexes past
the two supplied pointers and the Go program panics, which the embedding
reports as `none`. -/
def unpack2 : List (List Char) → Option (List Char × List Char)
  | [] => some ([], [])
  | [a] => some (a, [])
  | [a, b] => some (a, b)
  | _ :: _ :: _ :: _ => none

/-- Model of Go `strings.TrimSuffix`: remove one trailing copy of `suf`
when present, otherwise return the list unchanged. -/
def trimSuffixChars (l suf : List Char) : List Char :=
  if suf.isSuffixOf l then l.take (l.length - suf.length) else l

/-- Helper for `baseChars`: strip all trailing `/` characters. -/
def stripTrailingSlashes (l : List Char) : List Char :=
  (l.reverse.dropWhile (fun c => c = '/')).reverse

/-- Helper for `baseChars`: the segment after the last `/` (the whole
list when it has no `/`). -/
def lastSlashSeg (l : List Char) : List Char :=
  (l.reverse.takeWhile (fun c => c ≠ '/')).reverse

/-- Model of Go `path/filepath.Base` on a Unix separator: `"."` for the
empty path; otherwise strip trailing slashes, and return the last
slash-separated element, or `"/"` when the path consisted entirely of
slashes. -/
def baseChars (l : List Char) : List Char :=
  if l = [] then ['.']
  else
    let t := stripTrailingSlashes l
    if t = [] then ['/'] else lastSlashSeg t

/-- `splitRepoURL` from src/common.go, at the level of character lists.
`none` models the panic inside `unpack` (three or more `:`-separated
parts).  Otherwise: `vcs` is the part before the colon, `sansVcs` the
part after it (`""` when the input had no colon at all, since `unpack`
then only assigns the first variable), `fullPath` is `sansVcs` with a
trailing `".git"` removed, `name = Base fullPath`, and
`ns = TrimSuffix fullPath ("/" ++ name)`. -/
def splitRepoURLChars (url : List Char) : Option (List Char × List Char × List Char) :=
  match unpack2 (splitOnChar ':' url) with
  | none => none
  | some (vcs, sansVcs) =>
    let fullPath := trimSuffixChars sansVcs ['.', 'g', 'i', 't']
    let name := baseChars fullPath
    let ns := trimSuffixChars fullPath ('/' :: name)
    some (vcs, ns, name)

/-- `splitRepoURL` from src/common.go on `String`s; returns
`(vcs, ns, name)`, or `none` for the panic of `unpack`. -/
def splitRepoURL (url : String) : Option (String × String × String) :=
  match splitRepoURLChars url.data with
  | none => none
  | some (vcs, ns, name) => some (String.mk vcs, String.mk ns, String.mk name)

/-- Go `strings.TrimSuffix` on `String`s. -/
def trimSuffix (s suf : String) : String :=
  String.mk (trimSuffixChars s.data suf.data)

/-- Go `path/filepath.Base` on `String`s. -/
def goBase (s : String) : String :=
  String.mk (baseChars s.data)

/-! ### GitLab remote-API model (src/gitlab.go and src/unnamed/part_000)

The `*gitlab.Client` is modelled as an oracle record `GitlabClient` giving
the outcome of each remote operation; Go's `(value, resp, err)` returns
become `value × Option GoError` (the `*gitlab.Response` is not consulted
by any of the wrapped logic and is omitted).  Each modelled function also
returns the list of remote API calls it issued, in order. -/

/-- A Go `error` value. -/
structure GoError where
  msg : String
deriving DecidableEq

/-- The fields of `gitlab.Group` read by the repository: `ID` and
`FullPath`. -/
structure GitlabGroup where
  id : Int
  fullPath : String
deriving DecidableEq

/-- The fields of `gitlab.Project` read by the repository: `ID` and
`Path`. -/
structure GitlabProject where
  id : Int
  path : String
deriving DecidableEq

/-- The fields of `gitlab.CreateMergeRequestOptions` set by the
repository, plus the project identifier the request is created against. -/
structure GitlabMergeRequest where
  title : String
  sourceBranch : String
  targetBranch : String
  projectID : Int
deriving DecidableEq

/-- One remote API call, with the arguments the repository passes. -/
inductive APICall where
  | listGroups
  | listGroupProjects (groupID : Int)
  | createMergeRequest (projectID : Int) (title sourceBranch targetBranch : String)
deriving DecidableEq

/-- Oracle for the remote GitLab API backend. -/
structure GitlabClient where
  listGroupsResult : List GitlabGroup × Option GoError
  listGroupProjectsResult : Int → List GitlabProject × Option GoError
  createMergeRequestResult : Int → String → String → String →
    Option GitlabMergeRequest × Option GoError

/-- `getGitlabGroups`: one `ListGroups` call, returning the oracle's
groups and error. -/
def getGitlabGroups (c : GitlabClient) :
    (List GitlabGroup × Option GoError) × List APICall :=
  (c.listGroupsResult, [APICall.listGroups])

/-- The scan loop shared by `getGitlabGroupID` and `getGitlabProjectID`:
`id` starts at the Go zero value `0` and is overwritten by every matching
entry, so the last match in listing order wins. -/
def scanLastID {α : Type} (key : α → String) (ident : α → Int)
    (wanted : String) (l : List α) : Int :=
  l.foldl (fun id x => if key x = wanted then ident x else id) 0

/-- `getGitlabGroupID` from src/gitlab.go and src/unnamed/part_000:
list all groups, then scan for `FullPath == groupPath`, keeping the last
match (zero when none).  The listing error is returned alongside. -/
def getGitlabGroupID (c : GitlabClient) (groupPath : String) :
    (Int × Option GoError) × List APICall :=
  let r := getGitlabGroups c
  ((scanLastID GitlabGroup.fullPath GitlabGroup.id groupPath r.1.1, r.1.2), r.2)

/-- `getGitlabProjectID` from src/gitlab.go (arguments
`name, parentGroupPath`): resolve the parent group, then
unconditionally call `ListGroupProjects` with whatever identifier that
produced (zero when unresolved), and scan for `Path == name`, keeping
the last match.  As in the source, the error from the group lookup is
overwritten by the error of the project-listing call. -/
def getGitlabProjectID (c : GitlabClient) (name parentGroupPath : String) :
    (Int × Option GoError) × List APICall :=
  let g := getGitlabGroupID c parentGroupPath
  let parentID := g.1.1
  let pr := c.listGroupProjectsResult parentID
  ((scanLastID GitlabProject.path GitlabProject.id name pr.1, pr.2),
    g.2 ++ [APICall.listGroupProjects parentID])

/-- `getGitlabProjectID` from src/unnamed/part_000 (argument `url`):
derive `(parentGroupPath, name)` with `splitRepoURL` and resolve as in
`getGitlabProjectID`; `none` models the panic `splitRepoURL` can raise. -/
def getGitlabProjectIDFromURL (c : GitlabClient) (url : String) :
    Option ((Int × Option GoError) × List APICall) :=
  match splitRepoURL url with
  | none => none
  | some (_, parentGroupPath, name) => some (getGitlabProjectID c name parentGroupPath)

/-- `NewGitlabMergeRequest` from src/unnamed/part_000: resolve the
project identifier from `gr.SSHURL`; on a resolution error return it at
once (with a nil merge request); otherwise call `CreateMergeRequest`
with whatever identifier resolution produced, the commit message as
title and the given source and target branches. -/
def NewGitlabMergeRequest (c : GitlabClient) (sshURL commitMsg src dest : String) :
    Option ((Option GitlabMergeRequest × Option GoError) × List APICall) :=
  match getGitlabProjectIDFromURL c sshURL with
  | none => none
  | some ((pid, err), calls) =>
    match err with
    | some e => some ((none, some e), calls)
    | none =>
      let r := c.createMergeRequestResult pid commitMsg src dest
      some ((r.1, r.2), calls ++ [APICall.createMergeRequest pid commitMsg src dest])

/-- `NewGitlabMergeRequest` from src/gitlab.go: as the part_000 variant
but resolving from `(gr.Dir, gr.Namespace)`, with no early return — the
resolution error is overwritten by the create call's error, and the
create call is always issued. -/
def NewGitlabMergeRequestG (c : GitlabClient) (dir nsPath commitMsg src dest : String) :
    (Option GitlabMergeRequest × Option GoError) × List APICall :=
  let r := getGitlabProjectID c dir nsPath
  let pid := r.1.1
  let cr := c.createMergeRequestResult pid commitMsg src dest
  ((cr.1, cr.2), r.2 ++ [APICall.createMergeRequest pid commitMsg src dest])

/-- `Push` from src/unnamed/part_001: the result of `repo.Push` is
discarded and the named return `err` keeps its zero value `nil`, so the
wrapper returns no error regardless of the backend outcome.  The
argument is the error the Git backend's push reports. -/
def Push (repoPushResult : Option GoError) : Option GoError :=
  let _ := repoPushResult
  none

/-- `Push` from src/git.go (the library variant): the backend error is
returned unchanged. -/
def PushLib (repoPushResult : Option GoError) : Option GoError :=
  repoPushResult

/-! ### Git backend model (src/git.go) -/

/-- Outcome of `os.Stat` on one path. -/
inductive StatResult where
  | found
  | notFound
  | statError (e : GoError)
deriving DecidableEq

/-- `fileExists` from src/git.go: `os.IsNotExist` gives `(false, nil)`;
any other stat error gives `(true, err)`; success gives `(true, nil)`. -/
def fileExists : StatResult → Bool × Option GoError
  | .notFound => (false, none)
  | .statError e => (true, some e)
  | .found => (true, none)

/-- Oracle for the Git backend operations used by `InitAndPushNewRepo`:
the error each call reports, and the stat outcome per path. -/
structure GitBackend where
  plainInit : Option GoError
  createRemote : Option GoError
  worktree : Option GoError
  stat : String → StatResult
  add : String → Option GoError
  commit : Option GoError
  push : Option GoError

/-- One Git backend operation, with the arguments the repository passes. -/
inductive GitOp where
  | plainInit (dir : String) (isBare : Bool)
  | createRemote (name : String) (urls : List String)
  | add (fileName : String)
  | commit (msg : String) (all : Bool)
  | push (remoteName : String) (refSpecs : List String)
deriving DecidableEq

/-- The staging loop of `InitAndPushNewRepo` over `initFiles`: for each
file name, stat `dir + "/" + fileName` through `fileExists`; a stat
error aborts; an existing file is staged with `wt.Add fileName` (an add
error aborts); a missing file is skipped.  Returns the error, if any,
and the add operations issued. -/
def stageInitFiles (b : GitBackend) (dir : String) :
    List String → Option GoError × List GitOp
  | [] => (none, [])
  | fileName :: rest =>
    let r := fileExists (b.stat (dir ++ "/" ++ fileName))
    match r.2 with
    | some e => (some e, [])
    | none =>
      if r.1 then
        match b.add fileName with
        | some e => (some e, [GitOp.add fileName])
        | none =>
          let s := stageInitFiles b dir rest
          (s.1, GitOp.add fileName :: s.2)
      else
        stageInitFiles b dir rest

/-- `InitAndPushNewRepo` from src/git.go: `PlainInit dir false`, create
the remote `origin` with URL `gr.SSHURL`, obtain the worktree, stage
`.gitignore` and `CODEOWNERS` through `stageInitFiles`, commit with
`All: false`, and push to `origin` with the single ref spec
`refs/heads/master:refs/heads/main`.  Every error returns immediately.
The result is the final error, if any, plus the trace of issued
operations. -/
def InitAndPushNewRepo (b : GitBackend) (dir sshURL commitMsg : String) :
    Option GoError × List GitOp :=
  match b.plainInit with
  | some e => (some e, [GitOp.plainInit dir false])
  | none =>
  match b.createRemote with
  | some e => (some e, [GitOp.plainInit dir false, GitOp.createRemote "origin" [sshURL]])
  | none =>
  match b.worktree with
  | some e => (some e, [GitOp.plainInit dir false, GitOp.createRemote "origin" [sshURL]])
  | none =>
    let pre := [GitOp.plainInit dir false, GitOp.createRemote "origin" [sshURL]]
    let s := stageInitFiles b dir [".gitignore", "CODEOWNERS"]
    match s.1 with
    | some e => (some e, pre ++ s.2)
    | none =>
    match b.commit with
    | some e => (some e, pre ++ s.2 ++ [GitOp.commit commitMsg false])
    | none =>
    match b.push with
    | some e => (some e, pre ++ s.2 ++ [GitOp.commit commitMsg false,
        GitOp.push "origin" ["refs/heads/master:refs/heads/main"]])
    | none => (none, pre ++ s.2 ++ [GitOp.commit commitMsg false,
        GitOp.push "origin" ["refs/heads/master:refs/heads/main"]])

/-! ### Concrete backends used to evaluate the model at specific inputs -/

/-- A remote with no groups and no projects; creating a merge request
succeeds and echoes the options it was given. -/
def emptyClient : GitlabClient where
  listGroupsResult := ([], none)
  listGroupProjectsResult := fun _ => ([], none)
  createMergeRequestResult := fun pid title srcBranch destBranch =>
    (some ⟨title, srcBranch, destBranch, pid⟩, none)

/-- A remote with no groups at all, but whose project listing (for any
group identifier, including `0`) contains a project `proj` with id 7. -/
def phantomClient : GitlabClient where
  listGroupsResult := ([], none)
  listGroupProjectsResult := fun _ => ([⟨7, "proj"⟩], none)
  createMergeRequestResult := fun _ _ _ _ => (none, none)

/-- A remote whose group listing fails with an authentication error
while the project listing succeeds. -/
def errClient : GitlabClient where
  listGroupsResult := ([], some ⟨"401 Unauthorized"⟩)
  listGroupProjectsResult := fun _ => ([], none)
  createMergeRequestResult := fun _ _ _ _ => (none, none)

/-- A remote with two groups sharing the full path `g` and, under group
2, two projects sharing the path `p`. -/
def dupClient : GitlabClient where
  listGroupsResult := ([⟨1, "g"⟩, ⟨2, "g"⟩], none)
  listGroupProjectsResult := fun i => if i = 2 then ([⟨5, "p"⟩, ⟨6, "p"⟩], none) else ([], none)
  createMergeRequestResult := fun _ _ _ _ => (none, none)

/-- A remote with a single group `grp` (id 3) holding a single project
`proj` (id 9). -/
def oneClient : GitlabClient where
  listGroupsResult := ([⟨3, "grp"⟩], none)
  listGroupProjectsResult := fun i => if i = 3 then ([⟨9, "proj"⟩], none) else ([], none)
  createMergeRequestResult := fun _ _ _ _ => (none, none)

/-- A Git backend where every operation succeeds, `.gitignore` exists in
the directory `repo` and `CODEOWNERS` does not. -/
def demoBackend : GitBackend where
  plainInit := none
  createRemote := none
  worktree := none
  stat := fun f => if f = "repo/.gitignore" then StatResult.found else StatResult.notFound
  add := fun _ => none
  commit := none
  push := none

/-! ### Helper lemmas about the string models -/

theorem splitOnChar_ne_nil (c : Char) (l : List Char) : splitOnChar c l ≠ [] := by
  cases l with
  | nil => simp [splitOnChar]
  | cons x xs =>
    simp only [splitOnChar]
    by_cases hx : x = c <;> simp [hx]

theorem splitOnChar_all_ne (c : Char) (l : List Char) (h : ∀ x ∈ l, ¬ x = c) :
    splitOnChar c l = [l] := by
  induction l with
  | nil => rfl
  | cons x xs ih =>
    have hx : ¬ x = c := h x (List.mem_cons_self x xs)
    have hxs : splitOnChar c xs = [xs] := ih fun y hy => h y (List.mem_cons_of_mem x hy)
    simp [splitOnChar, hxs, hx]

theorem splitOnChar_append (c : Char) (a b : List Char) (h : ∀ x ∈ a, ¬ x = c) :
    splitOnChar c (a ++ (c :: b)) = a :: splitOnChar c b := by
  induction a with
  | nil => simp [splitOnChar]
  | cons x xs ih =>
    have hx : ¬ x = c := h x (List.mem_cons_self x xs)
    have hxs := ih fun y hy => h y (List.mem_cons_of_mem x hy)
    simp only [List.cons_append, splitOnChar, List.append_eq]
    rw [hxs]
    simp [hx]

theorem splitOnChar_length (c : Char) (l : List Char) :
    (splitOnChar c l).length = l.count c + 1 := by
  induction l with
  | nil => rfl
  | cons x xs ih =>
    simp only [splitOnChar]
    by_cases hx : x = c
    · simp only [if_pos hx, List.length_cons, List.count_cons, ih]
      rw [if_pos (by simp [hx])]
    · cases h : splitOnChar c xs with
      | nil => exact absurd h (splitOnChar_ne_nil c xs)
      | cons hd tl =>
        rw [h] at ih
        simp only [List.length_cons] at ih
        simp only [if_neg hx, h, List.headD_cons, List.tail_cons,
          List.length_cons, List.count_cons]
        rw [if_neg (by simp [hx])]
        omega

theorem trimSuffixChars_append (l suf : List Char) :
    trimSuffixChars (l ++ suf) suf = l := by
  unfold trimSuffixChars
  rw [if_pos (by rw [List.isSuffixOf_iff_suffix]; exact List.suffix_append l suf)]
  simp

theorem trimSuffixChars_of_longer (l suf : List Char) (h : l.length < suf.length) :
    trimSuffixChars l suf = l := by
  unfold trimSuffixChars
  rw [if_neg]
  intro hsuf
  rw [List.isSuffixOf_iff_suffix] at hsuf
  exact absurd hsuf.length_le (by omega)

theorem trimSuffixChars_all {p : Char → Prop} (l suf : List Char)
    (h : ∀ x ∈ l, p x) : ∀ x ∈ trimSuffixChars l suf, p x := by
  unfold trimSuffixChars
  by_cases hs : suf.isSuffixOf l
  · rw [if_pos hs]
    exact fun x hx => h x (List.take_subset _ _ hx)
  · rw [if_neg hs]; exact h

theorem dropWhile_all_false {p : Char → Bool} (l : List Char)
    (h : ∀ x ∈ l, ¬ p x = true) : l.dropWhile p = l := by
  cases l with
  | nil => rfl
  | cons x xs =>
    rw [List.dropWhile_cons, if_neg (h x (List.mem_cons_self x xs))]

theorem takeWhile_all_true {p : Char → Bool} (l : List Char)
    (h : ∀ x ∈ l, p x = true) : l.takeWhile p = l := by
  induction l with
  | nil => rfl
  | cons x xs ih =>
    rw [List.takeWhile_cons, if_pos (h x (List.mem_cons_self x xs)),
      ih fun y hy => h y (List.mem_cons_of_mem x hy)]

theorem takeWhile_append_all {p : Char → Bool} (l r : List Char)
    (h : ∀ x ∈ l, p x = true) :
    (l ++ r).takeWhile p = l ++ r.takeWhile p := by
  induction l with
  | nil => rfl
  | cons x xs ih =>
    rw [List.cons_append, List.takeWhile_cons,
      if_pos (h x (List.mem_cons_self x xs)),
      ih fun y hy => h y (List.mem_cons_of_mem x hy), List.cons_append]

theorem dropWhile_head_not {p : Char → Bool} {l : List Char} {y : Char} {ys : List Char}
    (h : l.dropWhile p = y :: ys) : ¬ p y = true := by
  induction l with
  | nil => simp at h
  | cons x xs ih =>
    rw [List.dropWhile_cons] at h
    by_cases hx : p x = true
    · rw [if_pos hx] at h; exact ih h
    · rw [if_neg hx] at h
      obtain ⟨rfl, -⟩ := List.cons.inj h
      exact hx

theorem takeWhile_sat {p : Char → Bool} {l : List Char} :
    ∀ x ∈ l.takeWhile p, p x = true := by
  induction l with
  | nil => simp
  | cons y ys ih =>
    rw [List.takeWhile_cons]
    by_cases hy : p y = true
    · rw [if_pos hy]
      intro x hx
      rcases List.mem_cons.mp hx with rfl | hx
      · exact hy
      · exact ih x hx
    · rw [if_neg hy]
      simp

theorem baseChars_slashfree (l : List Char) (hne : l ≠ [])
    (hsl : ∀ x ∈ l, ¬ x = '/') : baseChars l = l := by
  unfold baseChars
  rw [if_neg hne]
  have hstrip : stripTrailingSlashes l = l := by
    unfold stripTrailingSlashes
    rw [dropWhile_all_false l.reverse
      (fun x hx => by simpa using hsl x (List.mem_reverse.mp hx)), List.reverse_reverse]
  rw [hstrip, if_neg hne]
  unfold lastSlashSeg
  rw [takeWhile_all_true l.reverse
    (fun x hx => by simpa using hsl x (List.mem_reverse.mp hx)), List.reverse_reverse]

theorem baseChars_append_slashfree (p n : List Char) (hne : n ≠ [])
    (hsl : ∀ x ∈ n, ¬ x = '/') : baseChars (p ++ ('/' :: n)) = n := by
  unfold baseChars
  rw [if_neg (by simp)]
  have hrev : (p ++ ('/' :: n)).reverse = n.reverse ++ ('/' :: p.reverse) := by
    simp
  have hnrev : n.reverse ≠ [] := by simpa using hne
  obtain ⟨y, ys, hys⟩ := List.exists_cons_of_ne_nil hnrev
  have hy : ¬ y = '/' := by
    have : y ∈ n := List.mem_reverse.mp (hys ▸ List.mem_cons_self y ys)
    exact hsl y this
  have hstrip : stripTrailingSlashes (p ++ ('/' :: n)) = p ++ ('/' :: n) := by
    unfold stripTrailingSlashes
    rw [hrev, hys, List.cons_append, List.dropWhile_cons, if_neg (by simpa using hy),
      ← List.cons_append, ← hys, ← hrev, List.reverse_reverse]
  rw [hstrip, if_neg (by simp)]
  unfold lastSlashSeg
  rw [hrev, takeWhile_append_all n.reverse _
    (fun x hx => by simpa using hsl x (List.mem_reverse.mp hx)),
    List.takeWhile_cons, if_neg (by simp)]
  simp

theorem baseChars_all_slashes (l : List Char) (hne : l ≠ [])
    (h : ∀ x ∈ l, x = '/') : baseChars l = ['/'] := by
  unfold baseChars
  rw [if_neg hne]
  have hstrip : stripTrailingSlashes l = [] := by
    unfold stripTrailingSlashes
    rw [List.dropWhile_eq_nil_iff.mpr
      (fun x hx => by simpa using h x (List.mem_reverse.mp hx))]
    rfl
  rw [hstrip]
  rfl

theorem baseChars_shape (l : List Char) :
    (baseChars l ≠ [] ∧ ∀ x ∈ baseChars l, ¬ x = '/')
    ∨ (baseChars l = ['/'] ∧ l ≠ [] ∧ ∀ x ∈ l, x = '/') := by
  by_cases hne : l = []
  · subst hne
    left
    constructor
    · simp [baseChars]
    · intro x hx
      simp [baseChars] at hx
      simp [hx]
  · by_cases hall : ∀ x ∈ l, x = '/'
    · right
      exact ⟨baseChars_all_slashes l hne hall, hne, hall⟩
    · left
      unfold baseChars
      rw [if_neg hne]
      have hstrip : stripTrailingSlashes l ≠ [] := by
        unfold stripTrailingSlashes
        intro hcon
        rw [List.reverse_eq_nil_iff, List.dropWhile_eq_nil_iff] at hcon
        exact hall fun x hx => by
          simpa using hcon x (List.mem_reverse.mpr hx)
      rw [if_neg hstrip]
      obtain ⟨y, ys, hys⟩ :=
        List.exists_cons_of_ne_nil (by simpa using hstrip :
          (stripTrailingSlashes l).reverse ≠ [])
      have hy : ¬ y = '/' := by
        have hdw : l.reverse.dropWhile (fun c => c = '/') = y :: ys := by
          have : (stripTrailingSlashes l).reverse
              = l.reverse.dropWhile (fun c => c = '/') := by
            unfold stripTrailingSlashes
            rw [List.reverse_reverse]
          rw [← this, hys]
        simpa using dropWhile_head_not hdw
      constructor
      · unfold lastSlashSeg
        rw [hys, List.takeWhile_cons, if_pos (by simpa using hy)]
        simp
      · intro x hx
        unfold lastSlashSeg at hx
        rw [List.mem_reverse] at hx
        have := takeWhile_sat x hx
        revert this
        simp

theorem foldl_if_eq_getLastD {α : Type} (key : α → String) (ident : α → Int)
    (w : String) (l : List α) (a : Int) :
    l.foldl (fun id x => if key x = w then ident x else id) a
      = ((l.filter (fun x => key x = w)).map ident).getLastD a := by
  induction l generalizing a with
  | nil => rfl
  | cons x xs ih =>
    rw [List.foldl_cons, List.filter_cons]
    by_cases h : key x = w
    · rw [if_pos h, if_pos (by simpa using h), List.map_cons, List.getLastD_cons, ih]
    · rw [if_neg h, if_neg (by simpa using h), ih]

theorem scanLastID_eq_getLastD {α : Type} (key : α → String) (ident : α → Int)
    (w : String) (l : List α) :
    scanLastID key ident w l
      = ((l.filter (fun x => key x = w)).map ident).getLastD 0 :=
  foldl_if_eq_getLastD key ident w l 0

theorem scanLastID_no_match {α : Type} (key : α → String) (ident : α → Int)
    (w : String) (l : List α) (h : ∀ x ∈ l, ¬ key x = w) :
    scanLastID key ident w l = 0 := by
  rw [scanLastID_eq_getLastD, List.filter_eq_nil_iff.mpr fun x hx => by simpa using h x hx]
  rfl

theorem string_mk_data (s : String) : String.mk s.data = s := rfl

theorem splitRepoURLChars_of_split (url a b : List Char)
    (h : splitOnChar ':' url = [a, b]) :
    splitRepoURLChars url =
      some (a,
        trimSuffixChars (trimSuffixChars b ['.', 'g', 'i', 't'])
          ('/' :: baseChars (trimSuffixChars b ['.', 'g', 'i', 't'])),
        baseChars (trimSuffixChars b ['.', 'g', 'i', 't'])) := by
  unfold splitRepoURLChars
  rw [h]
  rfl

theorem splitRepoURLChars_of_split_one (url a : List Char)
    (h : splitOnChar ':' url = [a]) :
    splitRepoURLChars url = some (a, [], ['.']) := by
  unfold splitRepoURLChars
  rw [h]
  rfl

theorem rest_no_colon (ns name : List Char)
    (hn : ∀ x ∈ ns, ¬ x = ':') (hm : ∀ x ∈ name, ¬ x = ':') :
    ∀ x ∈ ns ++ ('/' :: (name ++ ['.', 'g', 'i', 't'])), ¬ x = ':' := by
  intro x hx
  rcases List.mem_append.mp hx with h1 | h1
  · exact hn x h1
  · rcases List.mem_cons.mp h1 with rfl | h2
    · decide
    · rcases List.mem_append.mp h2 with h3 | h3
      · exact hm x h3
      · simp only [List.mem_cons, List.not_mem_nil, or_false] at h3
        rcases h3 with rfl | rfl | rfl | rfl <;> decide

theorem splitRepoURLChars_wellformed (scheme ns name : List Char)
    (hs : ∀ x ∈ scheme, ¬ x = ':')
    (hn : ∀ x ∈ ns, ¬ x = ':')
    (hm1 : ∀ x ∈ name, ¬ x = ':')
    (hm2 : ∀ x ∈ name, ¬ x = '/')
    (hne : name ≠ []) :
    splitRepoURLChars
        (scheme ++ (':' :: (ns ++ ('/' :: (name ++ ['.', 'g', 'i', 't'])))))
      = some (scheme, ns, name) := by
  have hsplit : splitOnChar ':'
      (scheme ++ (':' :: (ns ++ ('/' :: (name ++ ['.', 'g', 'i', 't'])))))
      = [scheme, ns ++ ('/' :: (name ++ ['.', 'g', 'i', 't']))] := by
    rw [splitOnChar_append ':' scheme _ hs,
      splitOnChar_all_ne ':' _ (rest_no_colon ns name hn hm1)]
  rw [splitRepoURLChars_of_split _ _ _ hsplit]
  have h1 : trimSuffixChars (ns ++ ('/' :: (name ++ ['.', 'g', 'i', 't'])))
      ['.', 'g', 'i', 't'] = ns ++ ('/' :: name) := by
    rw [show ns ++ ('/' :: (name ++ ['.', 'g', 'i', 't']))
        = (ns ++ ('/' :: name)) ++ ['.', 'g', 'i', 't'] by simp]
    exact trimSuffixChars_append _ _
  rw [h1, baseChars_append_slashfree ns name hne hm2,
    trimSuffixChars_append ns ('/' :: name)]

theorem splitRepoURLChars_no_colon (l : List Char) (h : ∀ x ∈ l, ¬ x = ':') :
    splitRepoURLChars l = some (l, [], ['.']) :=
  splitRepoURLChars_of_split_one l l (splitOnChar_all_ne ':' l h)

theorem splitRepoURLChars_no_slash (scheme p : List Char)
    (hs : ∀ x ∈ scheme, ¬ x = ':')
    (hp : ∀ x ∈ p, ¬ x = ':')
    (hsl : ∀ x ∈ p, ¬ x = '/') :
    splitRepoURLChars (scheme ++ (':' :: p)) =
      some (scheme,
        (if trimSuffixChars p ['.', 'g', 'i', 't'] = [] then []
         else trimSuffixChars p ['.', 'g', 'i', 't']),
        (if trimSuffixChars p ['.', 'g', 'i', 't'] = [] then ['.']
         else trimSuffixChars p ['.', 'g', 'i', 't'])) := by
  have hsplit : splitOnChar ':' (scheme ++ (':' :: p)) = [scheme, p] := by
    rw [splitOnChar_append ':' scheme p hs, splitOnChar_all_ne ':' p hp]
  rw [splitRepoURLChars_of_split _ _ _ hsplit]
  have htsl : ∀ x ∈ trimSuffixChars p ['.', 'g', 'i', 't'], ¬ x = '/' :=
    trimSuffixChars_all p _ hsl
  by_cases hte : trimSuffixChars p ['.', 'g', 'i', 't'] = []
  · rw [hte, if_pos rfl, if_pos rfl]
    rfl
  · rw [if_neg hte, if_neg hte, baseChars_slashfree _ hte htsl,
      trimSuffixChars_of_longer _ _ (by simp)]

theorem splitRepoURLChars_roundtrip (url v ns n : List Char)
    (h : splitRepoURLChars url = some (v, ns, n)) :
    baseChars (ns ++ ('/' :: n)) = n := by
  unfold splitRepoURLChars at h
  rcases hu : unpack2 (splitOnChar ':' url) with _ | ⟨vcs, sansVcs⟩
  · rw [hu] at h
    exact absurd h (by simp)
  · rw [hu] at h
    simp only [Option.some.injEq, Prod.mk.injEq] at h
    obtain ⟨-, hns, hn⟩ := h
    subst hns
    subst hn
    rcases baseChars_shape (trimSuffixChars sansVcs ['.', 'g', 'i', 't'])
      with ⟨hne, hsl⟩ | ⟨hb, -, hTall⟩
    · exact baseChars_append_slashfree _ _ hne hsl
    · rw [hb]
      apply baseChars_all_slashes
      · simp
      · intro x hx
        rcases List.mem_append.mp hx with h1 | h1
        · exact trimSuffixChars_all _ _ hTall x h1
        · rcases List.mem_cons.mp h1 with rfl | h2
          · rfl
          · simp only [List.mem_singleton] at h2
            exact h2

/-! ### Claim theorems -/

/-- Claim C1, counterexample: the well-formedness conditions of the claim
(exactly one colon, at least one slash in the path) admit the URL
`s:a/.git`, whose final path segment `.git` loses to the `.git` suffix
removal.  There the claim demands `(s, a, "")`, but `splitRepoURL`
returns `(s, a/, a)`: the trailing-slash handling of `filepath.Base`
takes the previous segment as the name, and the namespace keeps its
trailing slash. -/
theorem splitRepoURL_wellformed_empty_name_cex :
    splitRepoURL ("s" ++ ":" ++ "a" ++ "/" ++ "" ++ ".git") = some ("s", "a/", "a")
      ∧ some (("s" : String), ("a/" : String), ("a" : String))
          ≠ some (("s" : String), ("a" : String), ("" : String)) := by
  constructor
  · decide
  · decide

/-- Claim C1 (amended): for every URL of the form
`scheme:ns/name.git` in which `scheme`, `ns` and `name` contain no colon,
`name` contains no slash, and additionally `name` is nonempty,
`splitRepoURL` returns the scheme as the part before the colon, the
namespace as everything between the colon and the last slash, and the
name as the final path segment with the trailing `.git` suffix removed. -/
theorem splitRepoURL_wellformed_parse (scheme ns name : String)
    (hs : ∀ x ∈ scheme.data, ¬ x = ':')
    (hn : ∀ x ∈ ns.data, ¬ x = ':')
    (hm1 : ∀ x ∈ name.data, ¬ x = ':')
    (hm2 : ∀ x ∈ name.data, ¬ x = '/')
    (hne : name ≠ "") :
    splitRepoURL (scheme ++ ":" ++ ns ++ "/" ++ name ++ ".git")
      = some (scheme, ns, name) := by
  have hdata : (scheme ++ ":" ++ ns ++ "/" ++ name ++ ".git").data
      = scheme.data ++ (':' :: (ns.data ++ ('/' :: (name.data ++ ['.', 'g', 'i', 't'])))) := by
    simp [String.data_append, show (":" : String).data = [':'] from rfl,
      show ("/" : String).data = ['/'] from rfl,
      show (".git" : String).data = ['.', 'g', 'i', 't'] from rfl]
  have hne' : name.data ≠ [] := fun hcon => hne (by
    rw [← string_mk_data name, hcon])
  unfold splitRepoURL
  rw [hdata,
    splitRepoURLChars_wellformed scheme.data ns.data name.data hs hn hm1 hm2 hne']

/-- Claim C1, witness at the spec's own example URL. -/
theorem splitRepoURL_wellformed_parse_witness :
    splitRepoURL ("git@gitlab.com" ++ ":" ++ "group/subgroup" ++ "/" ++ "project" ++ ".git")
      = some ("git@gitlab.com", "group/subgroup", "project") :=
  splitRepoURL_wellformed_parse "git@gitlab.com" "group/subgroup" "project"
    (by decide) (by decide) (by decide) (by decide) (by decide)

/-- Claim C2, counterexample: `splitRepoURL` is not total.  On an SSH URL
with a port — two colons — `strings.Split` yields three parts and
`unpack` writes past its two supplied pointers, a panic (modelled as
`none`), exactly the breakage the source comment
`This will break if http url. Fix.` warns about. -/
theorem splitRepoURL_two_colons_cex :
    splitRepoURL "ssh://git@host:2222/group/repo.git" = none := by decide

/-- Claim C2 (amended): `splitRepoURL` never performs I/O and is pure by
construction, but it is total only on inputs with at most one colon:
it produces a decomposition exactly when the input contains at most one
`:`, and panics (returns `none` in the model) on every input with two or
more colons. -/
theorem splitRepoURL_total_iff (url : String) :
    (splitRepoURL url).isSome = true ↔ url.data.count ':' ≤ 1 := by
  have hlen := splitOnChar_length ':' url.data
  unfold splitRepoURL splitRepoURLChars
  rcases hsp : splitOnChar ':' url.data with _ | ⟨a, _ | ⟨b, _ | ⟨c, rest⟩⟩⟩
  · exact absurd hsp (splitOnChar_ne_nil ':' url.data)
  · rw [hsp] at hlen
    simp only [List.length_cons, List.length_nil] at hlen
    simp only [unpack2, Option.isSome_some, true_iff]
    omega
  · rw [hsp] at hlen
    simp only [List.length_cons, List.length_nil] at hlen
    simp only [unpack2, Option.isSome_some, true_iff]
    omega
  · rw [hsp] at hlen
    simp only [List.length_cons] at hlen
    simp only [unpack2, Option.isSome_none, Bool.false_eq_true, false_iff]
    omega

/-- Claim C6, counterexample: on an input without a colon the claim
demands an empty scheme with the whole string treated as the path, but
`splitRepoURL` does the opposite: `unpack` assigns the single split part
to the scheme variable and leaves the path variable at its zero value,
so the whole input becomes the scheme and the path is empty. -/
theorem splitRepoURL_no_colon_cex :
    splitRepoURL "group/proj.git" = some ("group/proj.git", "", ".")
      ∧ ("group/proj.git" : String) ≠ "" := by
  constructor
  · decide
  · decide

/-- Claim C6 (amended): for every input string that contains no colon,
`splitRepoURL` does not fail, returns the whole input string as the
scheme, and derives namespace and name from the empty remaining path:
the namespace is empty and the name is `"."` (`filepath.Base` of the
empty string). -/
theorem splitRepoURL_no_colon (s : String) (h : ∀ x ∈ s.data, ¬ x = ':') :
    splitRepoURL s = some (s, "", ".") := by
  unfold splitRepoURL
  rw [splitRepoURLChars_no_colon s.data h]

/-- Claim C6, witness at a concrete colon-free input. -/
theorem splitRepoURL_no_colon_witness :
    splitRepoURL "abc" = some ("abc", "", ".") :=
  splitRepoURL_no_colon "abc" (by decide)

/-- Claim C7, counterexample: for a URL whose path has no slash the claim
demands an empty namespace, but `splitRepoURL "s:name.git"` returns the
namespace `name`: `TrimSuffix "name" "/name"` finds no such suffix and
leaves the namespace equal to the whole trimmed path. -/
theorem splitRepoURL_no_slash_cex :
    splitRepoURL "s:name.git" = some ("s", "name", "name")
      ∧ ("name" : String) ≠ "" := by
  constructor
  · decide
  · decide

/-- Claim C7 (amended): for every URL `scheme:p` with exactly one colon
and no slash in the path `p`, the name is the remaining path with any
trailing `.git` suffix removed (or `"."` when that leaves nothing), and
the namespace equals that same name rather than being empty. -/
theorem splitRepoURL_no_slash (scheme p : String)
    (hs : ∀ x ∈ scheme.data, ¬ x = ':')
    (hp : ∀ x ∈ p.data, ¬ x = ':')
    (hsl : ∀ x ∈ p.data, ¬ x = '/') :
    splitRepoURL (scheme ++ ":" ++ p)
      = if trimSuffixChars p.data ['.', 'g', 'i', 't'] = []
        then some (scheme, "", ".")
        else some (scheme, trimSuffix p ".git", trimSuffix p ".git") := by
  have hdata : (scheme ++ ":" ++ p).data = scheme.data ++ (':' :: p.data) := by
    simp [String.data_append, show (":" : String).data = [':'] from rfl]
  unfold splitRepoURL
  rw [hdata, splitRepoURLChars_no_slash scheme.data p.data hs hp hsl]
  by_cases hte : trimSuffixChars p.data ['.', 'g', 'i', 't'] = []
  · rw [if_pos hte, if_pos hte, if_pos hte]
  · rw [if_neg hte, if_neg hte, if_neg hte]
    simp only [Option.some.injEq, Prod.mk.injEq]
    exact ⟨trivial, rfl, rfl⟩

/-- Claim C7, witness at a concrete slash-free path. -/
theorem splitRepoURL_no_slash_witness :
    splitRepoURL ("git@h" ++ ":" ++ "proj.git") = some ("git@h", "proj", "proj") :=
  (splitRepoURL_no_slash "git@h" "proj.git" (by decide) (by decide) (by decide)).trans
    (by decide)

/-- Claim C8: round-trip on the path component.  Whenever `splitRepoURL`
returns `(scheme, ns, name)`, re-deriving the name from the rejoined
path `ns ++ "/" ++ name` with `filepath.Base` yields `name` again. -/
theorem splitRepoURL_roundtrip (url v ns n : String)
    (h : splitRepoURL url = some (v, ns, n)) :
    goBase (ns ++ "/" ++ n) = n := by
  unfold splitRepoURL at h
  rcases hc : splitRepoURLChars url.data with _ | ⟨a, b, c⟩
  · rw [hc] at h
    exact absurd h (by simp)
  · rw [hc] at h
    simp only [Option.some.injEq, Prod.mk.injEq] at h
    obtain ⟨-, hns, hn⟩ := h
    have hb : ns.data = b := by rw [← hns]
    have hcn : n.data = c := by rw [← hn]
    unfold goBase
    have hdata : (ns ++ "/" ++ n).data = b ++ ('/' :: c) := by
      simp [String.data_append, hb, hcn, show ("/" : String).data = ['/'] from rfl]
    rw [hdata, splitRepoURLChars_roundtrip url.data a b c hc, ← hcn]

/-- Claim C8, witness at a concrete URL. -/
theorem splitRepoURL_roundtrip_witness :
    goBase ("a" ++ "/" ++ "b") = "b" :=
  splitRepoURL_roundtrip "git@x:a/b.git" "git@x" "a" "b" (by decide)

/-- Claim C3: the spec is right that backend failures must be propagated
unchanged, but the cited code drops them.  `Push` (src/unnamed/part_001)
discards the result of `repo.Push` — its named return `err` is never
assigned — so a backend push failure comes back as `nil`, while the
src/git.go variant (`PushLib`) propagates the same failure unchanged.
Likewise `getGitlabProjectID` (src/gitlab.go) overwrites the error of
the failed group listing with the result of the project listing and
reports `nil`. -/
theorem push_and_resolution_swallow_errors :
    Push (some ⟨"ssh: handshake failed"⟩) = none
      ∧ PushLib (some ⟨"ssh: handshake failed"⟩) = some ⟨"ssh: handshake failed"⟩
      ∧ errClient.listGroupsResult.2 = some ⟨"401 Unauthorized"⟩
      ∧ (getGitlabProjectID errClient "proj" "grp").1.2 = none := by
  exact ⟨rfl, rfl, rfl, rfl⟩

/-- Claim C4, counterexample: against a remote with no groups and no
projects, resolution yields the zero identifier with no error, yet
`NewGitlabMergeRequest` does not fail with a not-found error: it calls
the remote create-merge-request API with project identifier 0 and
returns that call's result. -/
theorem newGitlabMergeRequest_notfound_cex :
    getGitlabProjectIDFromURL emptyClient "git@x:grp/proj.git"
        = some ((0, none), [APICall.listGroups, APICall.listGroupProjects 0])
      ∧ NewGitlabMergeRequest emptyClient "git@x:grp/proj.git" "msg" "src" "dst"
        = some ((some ⟨"msg", "src", "dst", 0⟩, none),
            [APICall.listGroups, APICall.listGroupProjects 0,
              APICall.createMergeRequest 0 "msg" "src" "dst"]) := by
  constructor
  · decide
  · decide

/-- Claim C4 (amended): when resolving the target project identifier
yields the zero identifier with no error, `NewGitlabMergeRequest`
performs no not-found check: it passes the zero identifier to the remote
create-merge-request call and returns that call's result. -/
theorem newGitlabMergeRequest_passes_zero_id
    (c : GitlabClient) (url msg src dest : String) (calls : List APICall)
    (h : getGitlabProjectIDFromURL c url = some ((0, none), calls)) :
    NewGitlabMergeRequest c url msg src dest
      = some (c.createMergeRequestResult 0 msg src dest,
          calls ++ [APICall.createMergeRequest 0 msg src dest]) := by
  unfold NewGitlabMergeRequest
  rw [h]

/-- Claim C4, witness: the amended behavior at the empty remote. -/
theorem newGitlabMergeRequest_passes_zero_id_witness :
    NewGitlabMergeRequest emptyClient "git@x:grp/proj.git" "msg" "src" "dst"
      = some ((some ⟨"msg", "src", "dst", 0⟩, none),
          [APICall.listGroups, APICall.listGroupProjects 0,
            APICall.createMergeRequest 0 "msg" "src" "dst"]) :=
  (newGitlabMergeRequest_passes_zero_id emptyClient "git@x:grp/proj.git" "msg" "src" "dst"
      [APICall.listGroups, APICall.listGroupProjects 0] (by decide)).trans (by decide)

/-- Claim C5, counterexample: against a remote with no groups — the
namespace `grp` does not resolve — `getGitlabProjectID` does not return
NotFound without the project-listing call: it issues
`ListGroupProjects 0` anyway, and here even returns the identifier 7 of
a project listed under that zero group. -/
theorem getGitlabProjectID_no_short_circuit_cex :
    getGitlabProjectIDFromURL phantomClient "git@x:grp/proj.git"
      = some ((7, none), [APICall.listGroups, APICall.listGroupProjects 0]) := by
  decide

/-- Claim C5 (amended): resolution composes — a URL whose namespace
resolves to a listed group and whose parsed name equals the path of a
project listed under that group yields that project's identifier — but
there is no short-circuit: when no listed group matches the namespace,
the project listing is still called, with the zero group identifier, and
its scan result is returned. -/
theorem resolveProjectID_compose_no_short_circuit :
    (∀ (c : GitlabClient) (url v nsP nm : String) (g : GitlabGroup) (p : GitlabProject),
        splitRepoURL url = some (v, nsP, nm) →
        c.listGroupsResult = ([g], none) →
        g.fullPath = nsP →
        c.listGroupProjectsResult g.id = ([p], none) →
        p.path = nm →
        getGitlabProjectIDFromURL c url
          = some ((p.id, none), [APICall.listGroups, APICall.listGroupProjects g.id]))
    ∧ (∀ (c : GitlabClient) (url v nsP nm : String),
        splitRepoURL url = some (v, nsP, nm) →
        (∀ g ∈ c.listGroupsResult.1, ¬ g.fullPath = nsP) →
        getGitlabProjectIDFromURL c url
          = some ((scanLastID GitlabProject.path GitlabProject.id nm
                    (c.listGroupProjectsResult 0).1,
                  (c.listGroupProjectsResult 0).2),
                [APICall.listGroups, APICall.listGroupProjects 0])) := by
  constructor
  · intro c url v nsP nm g p hurl hg hfp hp hpp
    unfold getGitlabProjectIDFromURL
    rw [hurl]
    simp [getGitlabProjectID, getGitlabGroupID, getGitlabGroups, scanLastID,
      hg, hfp, hp, hpp]
  · intro c url v nsP nm hurl hng
    have h0 : scanLastID GitlabGroup.fullPath GitlabGroup.id nsP c.listGroupsResult.1 = 0 :=
      scanLastID_no_match _ _ _ _ hng
    unfold getGitlabProjectIDFromURL
    rw [hurl]
    simp [getGitlabProjectID, getGitlabGroupID, getGitlabGroups, h0]

/-- Claim C5, witness: the compose half at a one-group, one-project
remote. -/
theorem resolveProjectID_compose_no_short_circuit_witness :
    getGitlabProjectIDFromURL oneClient "git@x:grp/proj.git"
      = some ((9, none), [APICall.listGroups, APICall.listGroupProjects 3]) :=
  resolveProjectID_compose_no_short_circuit.1 oneClient "git@x:grp/proj.git"
    "git@x" "grp" "proj" ⟨3, "grp"⟩ ⟨9, "proj"⟩ (by decide) rfl rfl (by decide) rfl

/-- Claim C9: with an error-free backend, `InitAndPushNewRepo` inits the
repository and creates the remote `origin`, stages exactly `.gitignore`
and `CODEOWNERS`, each only when it exists in the repository directory
(an absent file is silently skipped and is no error), then commits and
pushes with the single ref spec `refs/heads/master:refs/heads/main`. -/
theorem initAndPushNewRepo_stages_exactly_init_files
    (b : GitBackend) (dir sshURL msg : String)
    (h1 : b.plainInit = none) (h2 : b.createRemote = none) (h3 : b.worktree = none)
    (hg : b.stat (dir ++ "/" ++ ".gitignore") = StatResult.found
          ∨ b.stat (dir ++ "/" ++ ".gitignore") = StatResult.notFound)
    (hc : b.stat (dir ++ "/" ++ "CODEOWNERS") = StatResult.found
          ∨ b.stat (dir ++ "/" ++ "CODEOWNERS") = StatResult.notFound)
    (ha1 : b.add ".gitignore" = none) (ha2 : b.add "CODEOWNERS" = none)
    (h4 : b.commit = none) (h5 : b.push = none) :
    InitAndPushNewRepo b dir sshURL msg =
      (none,
        [GitOp.plainInit dir false, GitOp.createRemote "origin" [sshURL]]
        ++ (if b.stat (dir ++ "/" ++ ".gitignore") = StatResult.found
            then [GitOp.add ".gitignore"] else [])
        ++ (if b.stat (dir ++ "/" ++ "CODEOWNERS") = StatResult.found
            then [GitOp.add "CODEOWNERS"] else [])
        ++ [GitOp.commit msg false,
            GitOp.push "origin" ["refs/heads/master:refs/heads/main"]]) := by
  rcases hg with hg | hg <;> rcases hc with hc | hc <;>
    simp [InitAndPushNewRepo, stageInitFiles, fileExists,
      h1, h2, h3, h4, h5, hg, hc, ha1, ha2]

/-- Claim C9, witness: the error-free backend where `.gitignore` exists
and `CODEOWNERS` does not -- the absent file is skipped silently. -/
theorem initAndPushNewRepo_stages_exactly_init_files_witness :
    InitAndPushNewRepo demoBackend "repo" "git@x:g/p.git" "init" =
      (none,
        [GitOp.plainInit "repo" false, GitOp.createRemote "origin" ["git@x:g/p.git"],
          GitOp.add ".gitignore", GitOp.commit "init" false,
          GitOp.push "origin" ["refs/heads/master:refs/heads/main"]]) :=
  (initAndPushNewRepo_stages_exactly_init_files demoBackend "repo" "git@x:g/p.git" "init"
      rfl rfl rfl (by decide) (by decide) rfl rfl rfl rfl).trans (by decide)

/-- Claim C10: when the listed collection holds two or more entries
matching the searched path, resolution returns the identifier of the
last matching entry in listing order — the scan continues past a match —
both for `getGitlabGroupID` over group full paths and for
`getGitlabProjectID` over project paths. -/
theorem resolution_returns_last_match (c : GitlabClient) (gp nm pgp : String)
    (_hgs : 2 ≤ (c.listGroupsResult.1.filter (fun g => g.fullPath = gp)).length)
    (_hps : 2 ≤ ((c.listGroupProjectsResult (getGitlabGroupID c pgp).1.1).1.filter
          (fun p => p.path = nm)).length) :
    (getGitlabGroupID c gp).1.1
        = ((c.listGroupsResult.1.filter (fun g => g.fullPath = gp)).map
            GitlabGroup.id).getLastD 0
      ∧ (getGitlabProjectID c nm pgp).1.1
        = (((c.listGroupProjectsResult (getGitlabGroupID c pgp).1.1).1.filter
            (fun p => p.path = nm)).map GitlabProject.id).getLastD 0 := by
  constructor
  · exact scanLastID_eq_getLastD _ _ _ _
  · exact scanLastID_eq_getLastD _ _ _ _

/-- Claim C10, witness: two groups share the path `g` and two projects
share the path `p`; the later entries (ids 2 and 6) win. -/
theorem resolution_returns_last_match_witness :
    (getGitlabGroupID dupClient "g").1.1 = 2
      ∧ (getGitlabProjectID dupClient "p" "g").1.1 = 6 := by
  have h := resolution_returns_last_match dupClient "g" "p" "g" (by decide) (by decide)
  exact ⟨h.1.trans (by decide), h.2.trans (by decide)⟩

end GoGithelpers
